import Mathlib

set_option maxRecDepth 4000

/-!
Shallow embedding of `bf.py`, a Brainfuck interpreter, together with
theorems checking the natural-language specification against the code.

Modelling conventions:
* Python `int` cell values are `Int` (they can transiently exceed 255 and,
  before the underflow fix-up, go negative); Python `%` on a positive
  modulus agrees with `Int.emod`, which is Lean's `%` on `Int`.
* The Python class `Array` (the tape) is the structure `Bf.Array` holding
  the cell list and the data pointer.
* `collections.deque` used with `append` / `popleft` is a FIFO queue,
  modelled as a `List Nat` where `append` adds at the right end and
  `popleft` takes the head.
* A Python `dict` is an association list where a new binding is consed at
  the front and lookup returns the first (most recent) binding.
* Exceptions (`ValueError` from `Array.left`, `IndexError` from
  `popleft` on an empty deque, `KeyError` from `brace_map[position]`)
  become explicit error values.
* `sys.stdout.write` / `getch` become an output list and an input list.
-/

namespace Bf

/-- The tape: Python `class Array` (bf.py lines 27-95).
`array` is the cell list, `ptr` the data pointer. -/
structure Array where
  array : List Int
  ptr : Nat

/-- `Array.__init__`: 30000 zero cells, pointer 0 (bf.py lines 31-33). -/
def Array.init : Array :=
  ⟨List.replicate 30000 0, 0⟩

/-- `Array.get_data`: value of the current cell (bf.py lines 35-42).
The Python index never leaves the list bounds at any reachable state; the
out-of-range default 0 models nothing reachable. -/
def Array.get_data (m : Array) : Int :=
  m.array.getD m.ptr 0

/-- `Array.set_data`: sets the current cell to `n`, with no reduction
modulo 256 (bf.py lines 44-51). -/
def Array.set_data (m : Array) (n : Int) : Array :=
  ⟨m.array.set m.ptr n, m.ptr⟩

/-- `Array.increment` (bf.py lines 53-62): add 1; the overflow fix-up
(and its log message) triggers only when the new value is strictly
greater than 256. -/
def Array.increment (m : Array) : Array :=
  if m.array.getD m.ptr 0 + 1 > 256 then
    ⟨m.array.set m.ptr ((m.array.getD m.ptr 0 + 1) % 256), m.ptr⟩
  else
    ⟨m.array.set m.ptr (m.array.getD m.ptr 0 + 1), m.ptr⟩

/-- The condition under which `Array.increment` logs a buffer overflow:
the guard on bf.py line 60, evaluated on the state before the call. -/
def Array.incrementOverflows (m : Array) : Bool :=
  m.array.getD m.ptr 0 + 1 > 256

/-- `Array.decrement` (bf.py lines 64-73): subtract 1; the underflow
fix-up triggers when the new value is negative, and Python `% 256` on a
negative value matches `Int.emod`, giving 255 for -1. -/
def Array.decrement (m : Array) : Array :=
  if m.array.getD m.ptr 0 - 1 < 0 then
    ⟨m.array.set m.ptr ((m.array.getD m.ptr 0 - 1) % 256), m.ptr⟩
  else
    ⟨m.array.set m.ptr (m.array.getD m.ptr 0 - 1), m.ptr⟩

/-- `Array.right` (bf.py lines 76-84): increment the pointer; append one
zero cell when the pointer reaches the end. -/
def Array.right (m : Array) : Array :=
  if m.ptr + 1 ≥ m.array.length then ⟨m.array ++ [0], m.ptr + 1⟩
  else ⟨m.array, m.ptr + 1⟩

/-- `Array.left` (bf.py lines 86-95): decrement the pointer if positive,
otherwise raise `ValueError` (modelled as `none`). -/
def Array.left (m : Array) : Option Array :=
  if m.ptr > 0 then some ⟨m.array, m.ptr - 1⟩
  else none

/-- Python `dict` lookup over an association list where the most recent
binding is first. -/
def dictLookup (k : Nat) : List (Nat × Nat) → Option Nat
  | [] => none
  | p :: rest => if k = p.1 then some p.2 else dictLookup k rest

/-- The scanning loop of `make_brace_map` (bf.py lines 109-115): `pos` is
the enumeration index, `stk` the deque (`append` at the right, `popleft`
at the head), `bm` the dict built so far. `popleft` on an empty deque
raises `IndexError`, modelled as `none`. On `]` Python runs
`brace_map[start] = position` then `brace_map[position] = start`, so the
latter binding is the most recent. -/
def braceMapAux : List Char → Nat → List Nat → List (Nat × Nat) →
    Option (List (Nat × Nat))
  | [], _, _, bm => some bm
  | c :: cs, pos, stk, bm =>
    if c = '[' then braceMapAux cs (pos + 1) (stk ++ [pos]) bm
    else if c = ']' then
      match stk with
      | [] => none
      | start :: rest =>
          braceMapAux cs (pos + 1) rest ((pos, start) :: (start, pos) :: bm)
    else braceMapAux cs (pos + 1) stk bm

/-- `make_brace_map` (bf.py lines 97-116). -/
def make_brace_map (program : List Char) : Option (List (Nat × Nat)) :=
  braceMapAux program 0 [] []

/-- Errors the interpreter can raise: `ValueError` from `Array.left`,
`KeyError` from `brace_map[position]`, `IndexError` from `popleft` in
`make_brace_map`, and exhaustion of the modelled input stream. -/
inductive BfError where
  | segFault
  | keyError
  | indexError
  | inputEmpty

/-- Interpreter state: the tape, the program counter `position`, the
remaining input bytes and the output written so far. -/
structure InterpState where
  machine : Array
  position : Nat
  input : List Int
  output : List Int

/-- One iteration of the dispatch loop of `interpret`
(bf.py lines 130-153), including the trailing `position += 1`. -/
def step (program : List Char) (bm : List (Nat × Nat)) (st : InterpState) :
    Except BfError InterpState :=
  let c := program.getD st.position ' '
  if c = '>' then
    Except.ok ⟨st.machine.right, st.position + 1, st.input, st.output⟩
  else if c = '<' then
    match st.machine.left with
    | none => Except.error BfError.segFault
    | some m => Except.ok ⟨m, st.position + 1, st.input, st.output⟩
  else if c = '+' then
    Except.ok ⟨st.machine.increment, st.position + 1, st.input, st.output⟩
  else if c = '-' then
    Except.ok ⟨st.machine.decrement, st.position + 1, st.input, st.output⟩
  else if c = '.' then
    Except.ok ⟨st.machine, st.position + 1, st.input,
      st.output ++ [st.machine.get_data]⟩
  else if c = ',' then
    match st.input with
    | [] => Except.error BfError.inputEmpty
    | b :: rest =>
        Except.ok ⟨st.machine.set_data b, st.position + 1, rest, st.output⟩
  else if c = '[' ∧ st.machine.get_data = 0 then
    match dictLookup st.position bm with
    | none => Except.error BfError.keyError
    | some q => Except.ok ⟨st.machine, q + 1, st.input, st.output⟩
  else if c = ']' ∧ st.machine.get_data ≠ 0 then
    match dictLookup st.position bm with
    | none => Except.error BfError.keyError
    | some q => Except.ok ⟨st.machine, q + 1, st.input, st.output⟩
  else
    Except.ok ⟨st.machine, st.position + 1, st.input, st.output⟩

/-- Outcome of a fuel-bounded run of the `while position < len(program)`
loop. -/
inductive Outcome where
  | ok (st : InterpState)
  | err (e : BfError)
  | fuelOut

/-- The `while` loop of `interpret` (bf.py line 130), bounded by fuel. -/
def runLoop (program : List Char) (bm : List (Nat × Nat)) :
    Nat → InterpState → Outcome
  | 0, st =>
    if st.position < program.length then Outcome.fuelOut else Outcome.ok st
  | fuel + 1, st =>
    if st.position < program.length then
      match step program bm st with
      | Except.error e => Outcome.err e
      | Except.ok st' => runLoop program bm fuel st'
    else Outcome.ok st

/-- `interpret` (bf.py lines 118-153): build the brace map (an
`IndexError` there propagates), create a fresh tape, run the loop. -/
def interpret (program : List Char) (input : List Int) (fuel : Nat) :
    Outcome :=
  match make_brace_map program with
  | none => Outcome.err BfError.indexError
  | some bm => runLoop program bm fuel ⟨Array.init, 0, input, []⟩

/-- Whether a run ended by normal termination of the `while` loop. -/
def Outcome.isOk : Outcome → Bool
  | Outcome.ok _ => true
  | _ => false

/-- Whether a run raised `KeyError` (missing brace-map entry). -/
def Outcome.isKeyErr : Outcome → Bool
  | Outcome.err BfError.keyError => true
  | _ => false

/-- The current-cell value of the final state of a normally terminated
run. -/
def Outcome.finalData : Outcome → Option Int
  | Outcome.ok st => some st.machine.get_data
  | _ => none

/-- `increment` applied `n` times. -/
def incrementN : Nat → Array → Array
  | 0, m => m
  | n + 1, m => (incrementN n m).increment

/-- `right` applied `n` times. -/
def rightN : Nat → Array → Array
  | 0, m => m
  | n + 1, m => (rightN n m).right

/-- The four pointer/cell mutations named by the reachability claims. -/
inductive Op where
  | inc
  | dec
  | mvRight
  | mvLeft

/-- Apply one mutation; `mvLeft` at pointer 0 fails. -/
def applyOp : Op → Array → Option Array
  | Op.inc, m => some m.increment
  | Op.dec, m => some m.decrement
  | Op.mvRight, m => some m.right
  | Op.mvLeft, m => m.left

/-- Run a sequence of mutations, failing if any one fails. -/
def runOps : List Op → Array → Option Array
  | [], m => some m
  | o :: os, m =>
    match applyOp o m with
    | none => none
    | some m' => runOps os m'

/-- Every cell of the tape lies in the interval [0, 256]. -/
def cellsInRange (m : Array) : Prop :=
  ∀ v ∈ m.array, 0 ≤ v ∧ v ≤ 256

/-- Invariant of the `make_brace_map` scanning loop at index `pos`, with
pending deque `stk` and dict `bm`: all recorded positions are in the
scanned prefix, the deque is strictly increasing and disjoint from the
dict's keys, and the dict is an involution. -/
def MapInv (pos : Nat) (stk : List Nat) (bm : List (Nat × Nat)) : Prop :=
  (∀ k v, dictLookup k bm = some v → k < pos ∧ v < pos)
  ∧ (∀ x ∈ stk, x < pos)
  ∧ stk.Pairwise (· < ·)
  ∧ (∀ x ∈ stk, dictLookup x bm = none)
  ∧ (∀ k v, dictLookup k bm = some v → dictLookup v bm = some k)

/-- The loop program of spec §8's termination property. -/
def loopProgram : List Char :=
  ['+', '[', '>', '+', '<', '-', ']']

end Bf

namespace Bf

theorem getD_set_self (l : List Int) (i : Nat) (a : Int) (h : i < l.length) :
    (l.set i a).getD i 0 = a := by
  simp [List.getD_eq_getElem?_getD, List.getElem?_set_self h]

theorem Array.increment_ptr (m : Array) : m.increment.ptr = m.ptr := by
  unfold Array.increment
  split <;> rfl

theorem Array.increment_length (m : Array) :
    m.increment.array.length = m.array.length := by
  unfold Array.increment
  split <;> simp

theorem Array.get_data_increment (m : Array) (h : m.ptr < m.array.length) :
    m.increment.get_data =
      if m.get_data + 1 > 256 then (m.get_data + 1) % 256
      else m.get_data + 1 := by
  unfold Array.increment Array.get_data
  by_cases hc : m.array.getD m.ptr 0 + 1 > 256
  · rw [if_pos hc, if_pos hc]
    exact getD_set_self _ _ _ h
  · rw [if_neg hc, if_neg hc]
    exact getD_set_self _ _ _ h

theorem incrementN_init_get : ∀ k : Nat, k ≤ 256 →
    (incrementN k Array.init).get_data = (k : Int)
    ∧ (incrementN k Array.init).ptr = 0
    ∧ (incrementN k Array.init).array.length = 30000 := by
  intro k
  induction k with
  | zero =>
    intro _
    refine ⟨rfl, rfl, ?_⟩
    show Array.init.array.length = 30000
    exact List.length_replicate 30000 0
  | succ n ih =>
    intro h
    obtain ⟨h1, h2, h3⟩ := ih (by omega)
    have hlt : (incrementN n Array.init).ptr <
        (incrementN n Array.init).array.length := by
      rw [h2, h3]; omega
    refine ⟨?_, ?_, ?_⟩
    · show (incrementN n Array.init).increment.get_data = _
      rw [Array.get_data_increment _ hlt, h1, if_neg (by omega)]
      omega
    · show (incrementN n Array.init).increment.ptr = 0
      rw [Array.increment_ptr, h2]
    · show (incrementN n Array.init).increment.array.length = 30000
      rw [Array.increment_length, h3]

/-- C1: on the fresh tape, 256 increments do NOT return the cell to 0:
the overflow guard fires only above 256, so the cell sits at 256 after
the 256th increment, no overflow is recorded there, and only the 257th
increment wraps, to 1. This evaluates the code at the claim's input. -/
theorem increment_256_sticks_at_256 :
    (incrementN 256 Array.init).get_data = 256
    ∧ (incrementN 255 Array.init).incrementOverflows = false
    ∧ (incrementN 257 Array.init).get_data = 1 := by
  have h256 := incrementN_init_get 256 (by omega)
  have h255 := incrementN_init_get 255 (by omega)
  refine ⟨by exact_mod_cast h256.1, ?_, ?_⟩
  · unfold Array.incrementOverflows
    have hg := h255.1
    unfold Array.get_data at hg
    rw [hg]
    decide
  · show (incrementN 256 Array.init).increment.get_data = 1
    have hlt : (incrementN 256 Array.init).ptr <
        (incrementN 256 Array.init).array.length := by
      rw [h256.2.1, h256.2.2]; omega
    rw [Array.get_data_increment _ hlt, h256.1]
    norm_num

end Bf

namespace Bf

theorem Array.get_data_decrement (m : Array) (h : m.ptr < m.array.length) :
    m.decrement.get_data =
      if m.get_data - 1 < 0 then (m.get_data - 1) % 256
      else m.get_data - 1 := by
  unfold Array.decrement Array.get_data
  by_cases hc : m.array.getD m.ptr 0 - 1 < 0
  · rw [if_pos hc, if_pos hc]
    exact getD_set_self _ _ _ h
  · rw [if_neg hc, if_neg hc]
    exact getD_set_self _ _ _ h

theorem cellsInRange_init : cellsInRange Array.init := by
  intro v hv
  rw [List.eq_of_mem_replicate hv]
  exact ⟨le_refl 0, by norm_num⟩

theorem getD_bound (m : Array) (hm : cellsInRange m) :
    0 ≤ m.array.getD m.ptr 0 ∧ m.array.getD m.ptr 0 ≤ 256 := by
  rw [List.getD_eq_getElem?_getD]
  cases h : m.array[m.ptr]? with
  | none => exact ⟨le_refl 0, by norm_num⟩
  | some a => exact hm a (List.getElem?_mem h)

theorem cellsInRange_increment (m : Array) (hm : cellsInRange m) :
    cellsInRange m.increment := by
  have hb := getD_bound m hm
  intro v hv
  unfold Array.increment at hv
  by_cases hc : m.array.getD m.ptr 0 + 1 > 256
  · rw [if_pos hc] at hv
    rcases List.mem_or_eq_of_mem_set hv with h | h
    · exact hm v h
    · subst h
      refine ⟨Int.emod_nonneg _ (by norm_num), ?_⟩
      have := Int.emod_lt_of_pos (m.array.getD m.ptr 0 + 1)
        (show (0:Int) < 256 by norm_num)
      omega
  · rw [if_neg hc] at hv
    rcases List.mem_or_eq_of_mem_set hv with h | h
    · exact hm v h
    · subst h
      omega

theorem cellsInRange_decrement (m : Array) (hm : cellsInRange m) :
    cellsInRange m.decrement := by
  have hb := getD_bound m hm
  intro v hv
  unfold Array.decrement at hv
  by_cases hc : m.array.getD m.ptr 0 - 1 < 0
  · rw [if_pos hc] at hv
    rcases List.mem_or_eq_of_mem_set hv with h | h
    · exact hm v h
    · subst h
      refine ⟨Int.emod_nonneg _ (by norm_num), ?_⟩
      have := Int.emod_lt_of_pos (m.array.getD m.ptr 0 - 1)
        (show (0:Int) < 256 by norm_num)
      omega
  · rw [if_neg hc] at hv
    rcases List.mem_or_eq_of_mem_set hv with h | h
    · exact hm v h
    · subst h
      omega

theorem cellsInRange_right (m : Array) (hm : cellsInRange m) :
    cellsInRange m.right := by
  intro v hv
  unfold Array.right at hv
  by_cases hc : m.ptr + 1 ≥ m.array.length
  · rw [if_pos hc] at hv
    rcases List.mem_append.mp hv with h | h
    · exact hm v h
    · rw [List.mem_singleton.mp h]
      exact ⟨le_refl 0, by norm_num⟩
  · rw [if_neg hc] at hv
    exact hm v hv

theorem cellsInRange_left (m m' : Array) (h : m.left = some m')
    (hm : cellsInRange m) : cellsInRange m' := by
  unfold Array.left at h
  by_cases hc : m.ptr > 0
  · rw [if_pos hc] at h
    cases h
    intro v hv
    exact hm v hv
  · rw [if_neg hc] at h
    cases h

theorem runOps_cellsInRange : ∀ (ops : List Op) (m0 m : Array),
    cellsInRange m0 → runOps ops m0 = some m → cellsInRange m := by
  intro ops
  induction ops with
  | nil =>
    intro m0 m h0 hr
    cases hr
    exact h0
  | cons o os ih =>
    intro m0 m h0 hr
    unfold runOps at hr
    cases ho : applyOp o m0 with
    | none => rw [ho] at hr; cases hr
    | some m1 =>
      rw [ho] at hr
      refine ih m1 m ?_ hr
      cases o with
      | inc => cases ho; exact cellsInRange_increment m0 h0
      | dec => cases ho; exact cellsInRange_decrement m0 h0
      | mvRight => cases ho; exact cellsInRange_right m0 h0
      | mvLeft => exact cellsInRange_left m0 m1 ho h0

/-- C10: every tape state reachable from the fresh tape by increment,
decrement, move right and move left has all cells in [0, 256]; a cell at
255 is incremented to exactly 256, and a cell at 256 is incremented to
1. -/
theorem reachable_cells_in_0_256 :
    (∀ (ops : List Op) (m : Array),
      runOps ops Array.init = some m → cellsInRange m)
    ∧ (∀ m : Array, m.get_data = 255 → m.increment.get_data = 256)
    ∧ (∀ m : Array, m.get_data = 256 → m.increment.get_data = 1) := by
  have hrange : ∀ m : Array, m.get_data ≠ 0 → m.ptr < m.array.length := by
    intro m hm
    by_contra hge
    unfold Array.get_data at hm
    rw [List.getD_eq_getElem?_getD, List.getElem?_eq_none (by omega)] at hm
    simp at hm
  refine ⟨fun ops m h =>
    runOps_cellsInRange ops Array.init m cellsInRange_init h, ?_, ?_⟩
  · intro m hm
    rw [Array.get_data_increment m (hrange m (by rw [hm]; norm_num)), hm]
    norm_num
  · intro m hm
    rw [Array.get_data_increment m (hrange m (by rw [hm]; norm_num)), hm]
    norm_num

/-- Witness for C10 at the concrete reachable state after one increment
and at one-cell tapes holding 255 and 256. -/
theorem reachable_cells_witness :
    cellsInRange (Array.increment Array.init)
    ∧ (Array.increment ⟨[255], 0⟩).get_data = 256
    ∧ (Array.increment ⟨[256], 0⟩).get_data = 1 :=
  ⟨reachable_cells_in_0_256.1 [Op.inc] (Array.increment Array.init) rfl,
   reachable_cells_in_0_256.2.1 ⟨[255], 0⟩ rfl,
   reachable_cells_in_0_256.2.2 ⟨[256], 0⟩ rfl⟩

end Bf

namespace Bf

/-- C2: the brace map built for the nested program `[[]]` pairs the
brackets first-in-first-out (`popleft` on the deque), giving 0↔2 and
1↔3, not the syntactic nesting 0↔3 and 1↔2 that standard parenthesis
matching requires. -/
theorem make_brace_map_pairs_fifo :
    make_brace_map ['[', '[', ']', ']'] =
      some [(3, 1), (1, 3), (2, 0), (0, 2)]
    ∧ dictLookup 0 [(3, 1), (1, 3), (2, 0), (0, 2)] = some 2
    ∧ dictLookup 1 [(3, 1), (1, 3), (2, 0), (0, 2)] = some 3 :=
  ⟨rfl, rfl, rfl⟩

/-- C3: an unmatched `[` is not detected during brace-map construction:
for `+[` the map is built without error, the `+` executes (the final
cell holds 1) and the run terminates normally; for the program `[` the
missing map entry surfaces as a `KeyError` during execution, not before
it. -/
theorem unmatched_open_bracket_escapes_build :
    make_brace_map ['+', '['] = some []
    ∧ (interpret ['+', '['] [] 5).isOk = true
    ∧ (interpret ['+', '['] [] 5).finalData = some 1
    ∧ (interpret ['['] [] 5).isKeyErr = true :=
  ⟨rfl, rfl, rfl, rfl⟩

/-- C4: `set_data` stores its argument unreduced, so writing 300 leaves
the cell at 300, not at 300 mod 256 = 44, violating the claimed [0,255]
invariant. -/
theorem set_data_stores_raw_value :
    (Array.set_data Array.init 300).get_data = 300
    ∧ ¬ (Array.set_data Array.init 300).get_data ≤ 255 :=
  ⟨rfl, by decide⟩

end Bf

namespace Bf

/-- C7: `left` from pointer 0 always raises (returns `none`); from any
positive pointer it succeeds and decrements the pointer by exactly 1. -/
theorem move_left_spec (m : Array) :
    (m.ptr = 0 → Array.left m = none)
    ∧ (0 < m.ptr → Array.left m = some ⟨m.array, m.ptr - 1⟩) := by
  constructor
  · intro h
    unfold Array.left
    rw [if_neg (by omega)]
  · intro h
    unfold Array.left
    rw [if_pos h]

/-- Witness for C7: `left` fails on the fresh tape and decrements the
pointer 5 to 4 on a one-cell tape. -/
theorem move_left_witness :
    Array.left Array.init = none ∧ Array.left ⟨[0], 5⟩ = some ⟨[0], 4⟩ :=
  ⟨(move_left_spec Array.init).1 rfl, (move_left_spec ⟨[0], 5⟩).2 (by decide)⟩

theorem rightN_init_spec : ∀ N : Nat,
    (rightN N Array.init).ptr = N
    ∧ (rightN N Array.init).array.length = max 30000 (N + 1) := by
  intro N
  induction N with
  | zero =>
    refine ⟨rfl, ?_⟩
    show (List.replicate 30000 (0 : Int)).length = max 30000 1
    rw [List.length_replicate]
    omega
  | succ n ih =>
    obtain ⟨h1, h2⟩ := ih
    constructor
    · show (rightN n Array.init).right.ptr = n + 1
      unfold Array.right
      split <;> simp [h1]
    · show (rightN n Array.init).right.array.length = max 30000 (n + 2)
      unfold Array.right
      by_cases hc : (rightN n Array.init).ptr + 1 ≥
          (rightN n Array.init).array.length
      · rw [if_pos hc]
        rw [h1, h2] at hc
        simp [List.length_append, h2]
        omega
      · rw [if_neg hc]
        rw [h1, h2] at hc
        rw [h2]
        omega

end Bf

namespace Bf

/-- C6: N calls of `right` from the fresh tape always succeed, leave the
pointer at N and the tape length at max 30000 (N+1); once the pointer
runs past the initial allocation, each further call appends exactly one
zero cell. -/
theorem move_right_grows_to_max (N : Nat) :
    ((rightN N Array.init).ptr = N
      ∧ (rightN N Array.init).array.length = max 30000 (N + 1))
    ∧ (N + 1 ≥ 30000 →
      (rightN (N + 1) Array.init).array = (rightN N Array.init).array ++ [0]) := by
  refine ⟨rightN_init_spec N, ?_⟩
  intro h
  obtain ⟨h1, h2⟩ := rightN_init_spec N
  show (rightN N Array.init).right.array = (rightN N Array.init).array ++ [0]
  unfold Array.right
  rw [if_pos (by rw [h1, h2]; omega)]

/-- Witness for C6 at N = 2 and at the first append N + 1 = 30000. -/
theorem move_right_witness :
    ((rightN 2 Array.init).ptr = 2
      ∧ (rightN 2 Array.init).array.length = max 30000 3)
    ∧ (29999 + 1 ≥ 30000
      ∧ (rightN (29999 + 1) Array.init).array =
          (rightN 29999 Array.init).array ++ [0]) :=
  ⟨(move_right_grows_to_max 2).1,
   by omega,
   (move_right_grows_to_max 29999).2 (by omega)⟩

end Bf

namespace Bf

/-- C5: when the interpreter sits on a `[` with current cell 0, or on a
`]` with current cell nonzero, and the jump table holds a partner `q`
for the current position, the step sets the program counter to `q` and
then applies the universal +1 advance, so execution resumes at `q + 1`
with the tape, input and output untouched. -/
theorem bracket_jump_resumes_after_partner
    (program : List Char) (bm : List (Nat × Nat)) (st : InterpState)
    (q : Nat) (hq : dictLookup st.position bm = some q) :
    (program.getD st.position ' ' = '[' → st.machine.get_data = 0 →
      step program bm st =
        Except.ok ⟨st.machine, q + 1, st.input, st.output⟩)
    ∧ (program.getD st.position ' ' = ']' → st.machine.get_data ≠ 0 →
      step program bm st =
        Except.ok ⟨st.machine, q + 1, st.input, st.output⟩) := by
  constructor
  · intro hc hv
    simp only [step, hc]
    rw [hq]
    simp [hv]
  · intro hc hv
    simp only [step, hc]
    rw [hq]
    simp [hv]

/-- Witness for C5: a jump from a `[` over cell 0 with recorded partner
5 resumes at 6, and a jump from a `]` over cell 5 with recorded partner
7 resumes at 8. -/
theorem bracket_jump_witness :
    step ['['] [(0, 5)] ⟨Array.init, 0, [], []⟩ =
      Except.ok ⟨Array.init, 6, [], []⟩
    ∧ step [']'] [(0, 7)] ⟨⟨[5], 0⟩, 0, [], []⟩ =
      Except.ok ⟨⟨[5], 0⟩, 8, [], []⟩ :=
  ⟨(bracket_jump_resumes_after_partner ['['] [(0, 5)]
      ⟨Array.init, 0, [], []⟩ 5 rfl).1 rfl rfl,
   (bracket_jump_resumes_after_partner [']'] [(0, 7)]
      ⟨⟨[5], 0⟩, 0, [], []⟩ 7 rfl).2 rfl (by decide)⟩

end Bf

namespace Bf

theorem dictLookup_cons (k a b : Nat) (l : List (Nat × Nat)) :
    dictLookup k ((a, b) :: l) = if k = a then some b else dictLookup k l :=
  rfl

theorem MapInv.mono {pos : Nat} {stk : List Nat} {bm : List (Nat × Nat)}
    (h : MapInv pos stk bm) : MapInv (pos + 1) stk bm := by
  obtain ⟨hkeys, hstk, hpair, hnone, hinv⟩ := h
  refine ⟨?_, ?_, hpair, hnone, hinv⟩
  · intro k v hkv
    have := hkeys k v hkv
    omega
  · intro x hx
    have := hstk x hx
    omega

theorem MapInv.push {pos : Nat} {stk : List Nat} {bm : List (Nat × Nat)}
    (h : MapInv pos stk bm) : MapInv (pos + 1) (stk ++ [pos]) bm := by
  obtain ⟨hkeys, hstk, hpair, hnone, hinv⟩ := h
  refine ⟨?_, ?_, ?_, ?_, hinv⟩
  · intro k v hkv
    have := hkeys k v hkv
    omega
  · intro x hx
    rcases List.mem_append.mp hx with hx | hx
    · have := hstk x hx
      omega
    · rw [List.mem_singleton.mp hx]
      omega
  · refine List.pairwise_append.mpr ⟨hpair, List.pairwise_singleton _ _, ?_⟩
    intro x hx y hy
    rw [List.mem_singleton.mp hy]
    exact hstk x hx
  · intro x hx
    rcases List.mem_append.mp hx with hx | hx
    · exact hnone x hx
    · rw [List.mem_singleton.mp hx]
      cases hl : dictLookup pos bm with
      | none => rfl
      | some v =>
        have := (hkeys pos v hl).1
        omega

theorem MapInv.pop {pos s : Nat} {rest : List Nat} {bm : List (Nat × Nat)}
    (h : MapInv pos (s :: rest) bm) :
    MapInv (pos + 1) rest ((pos, s) :: (s, pos) :: bm) := by
  obtain ⟨hkeys, hstk, hpair, hnone, hinv⟩ := h
  have hs_pos : s < pos := hstk s (List.mem_cons_self s rest)
  have hs_rest : ∀ x ∈ rest, s < x := (List.pairwise_cons.mp hpair).1
  refine ⟨?_, ?_, (List.pairwise_cons.mp hpair).2, ?_, ?_⟩
  · intro k v hkv
    rw [dictLookup_cons] at hkv
    by_cases h1 : k = pos
    · rw [if_pos h1] at hkv
      cases hkv
      omega
    · rw [if_neg h1, dictLookup_cons] at hkv
      by_cases h2 : k = s
      · rw [if_pos h2] at hkv
        cases hkv
        omega
      · rw [if_neg h2] at hkv
        have := hkeys k v hkv
        omega
  · intro x hx
    have := hstk x (List.mem_cons_of_mem s hx)
    omega
  · intro x hx
    have hx_pos : x < pos := hstk x (List.mem_cons_of_mem s hx)
    have hx_s : s < x := hs_rest x hx
    rw [dictLookup_cons, if_neg (by omega), dictLookup_cons,
      if_neg (by omega)]
    exact hnone x (List.mem_cons_of_mem s hx)
  · intro k v hkv
    rw [dictLookup_cons] at hkv
    by_cases h1 : k = pos
    · rw [if_pos h1] at hkv
      cases hkv
      rw [dictLookup_cons, if_neg (by omega), dictLookup_cons, if_pos rfl]
      rw [h1]
    · rw [if_neg h1, dictLookup_cons] at hkv
      by_cases h2 : k = s
      · rw [if_pos h2] at hkv
        cases hkv
        rw [dictLookup_cons, if_pos rfl]
        rw [h2]
      · rw [if_neg h2] at hkv
        have hold := hinv k v hkv
        have hv_pos : v < pos := (hkeys k v hkv).2
        have hv_ne_s : v ≠ s := by
          intro he
          rw [he, hnone s (List.mem_cons_self s rest)] at hold
          cases hold
        rw [dictLookup_cons, if_neg (by omega), dictLookup_cons,
          if_neg hv_ne_s]
        exact hold

theorem braceMapAux_involution :
    ∀ (cs : List Char) (pos : Nat) (stk : List Nat)
      (bm m : List (Nat × Nat)), MapInv pos stk bm →
      braceMapAux cs pos stk bm = some m →
      ∀ k v, dictLookup k m = some v → dictLookup v m = some k := by
  intro cs
  induction cs with
  | nil =>
    intro pos stk bm m hinv hrun
    cases hrun
    exact hinv.2.2.2.2
  | cons c cs ih =>
    intro pos stk bm m hinv hrun
    rw [braceMapAux.eq_def] at hrun
    simp only at hrun
    by_cases h1 : c = '['
    · rw [if_pos h1] at hrun
      exact ih (pos + 1) (stk ++ [pos]) bm m hinv.push hrun
    · rw [if_neg h1] at hrun
      by_cases h2 : c = ']'
      · rw [if_pos h2] at hrun
        cases stk with
        | nil => cases hrun
        | cons s rest =>
          exact ih (pos + 1) rest ((pos, s) :: (s, pos) :: bm) m
            hinv.pop hrun
      · rw [if_neg h2] at hrun
        exact ih (pos + 1) stk bm m hinv.mono hrun

theorem mapInv_start : MapInv 0 [] [] := by
  refine ⟨?_, ?_, List.Pairwise.nil, ?_, ?_⟩
  · intro k v hkv
    cases hkv
  · intro x hx
    cases hx
  · intro x hx
    cases hx
  · intro k v hkv
    cases hkv

/-- C8: whenever `make_brace_map` succeeds, the resulting table is an
involution on its key set: if it maps k to v, it maps v back to k. -/
theorem brace_map_involution (program : List Char) (m : List (Nat × Nat))
    (h : make_brace_map program = some m) :
    ∀ k v, dictLookup k m = some v → dictLookup v m = some k :=
  braceMapAux_involution program 0 [] [] m mapInv_start h

/-- Witness for C8 on the program `[]`: the table maps 1 to 0, and back
0 to 1. -/
theorem brace_map_involution_witness :
    dictLookup 0 [(1, 0), (0, 1)] = some 1 :=
  brace_map_involution ['[', ']'] [(1, 0), (0, 1)] rfl 1 0 rfl

end Bf

namespace Bf

theorem runLoop_step_ok (program : List Char) (bm : List (Nat × Nat))
    (n : Nat) (st st' : InterpState) (h1 : st.position < program.length)
    (h2 : step program bm st = Except.ok st') :
    runLoop program bm (n + 1) st = runLoop program bm n st' := by
  rw [runLoop.eq_def]
  simp only
  rw [if_pos h1, h2]

theorem runLoop_halted (program : List Char) (bm : List (Nat × Nat))
    (n : Nat) (st : InterpState) (h : ¬ st.position < program.length) :
    runLoop program bm n st = Outcome.ok st := by
  cases n <;> (rw [runLoop.eq_def]; simp only; rw [if_neg h])

/-- C9: the run of `+[>+<-]` on a fresh tape terminates normally (within
20 loop iterations), exiting the loop when the tested cell has returned
to 0; the final current cell is 0. -/
theorem plus_loop_run_terminates :
    (interpret loopProgram [] 20).isOk = true
    ∧ (interpret loopProgram [] 20).finalData = some 0 := by
  have hr : (⟨1 :: List.replicate 29999 0, 0⟩ : Array).right
      = ⟨1 :: List.replicate 29999 0, 1⟩ := by
    unfold Array.right
    have hc : ¬ ((⟨1 :: List.replicate 29999 0, 0⟩ : Array).ptr + 1 ≥
        (⟨1 :: List.replicate 29999 0, 0⟩ : Array).array.length) := by
      show ¬ (0 + 1 ≥ (1 :: List.replicate 29999 0).length)
      rw [List.length_cons, List.length_replicate]
      omega
    rw [if_neg hc]
  have hstep2 : step loopProgram [(6, 1), (1, 6)]
      ⟨⟨1 :: List.replicate 29999 0, 0⟩, 2, [], []⟩ =
      Except.ok ⟨⟨1 :: List.replicate 29999 0, 1⟩, 3, [], []⟩ := by
    show Except.ok
      (⟨(⟨1 :: List.replicate 29999 0, 0⟩ : Array).right, 3, [], []⟩ :
        InterpState) = _
    rw [hr]
  have h0 : interpret loopProgram [] 20 =
      runLoop loopProgram [(6, 1), (1, 6)] 20 ⟨Array.init, 0, [], []⟩ := rfl
  have e1 : runLoop loopProgram [(6, 1), (1, 6)] 20 ⟨Array.init, 0, [], []⟩
      = runLoop loopProgram [(6, 1), (1, 6)] 19
        ⟨⟨1 :: List.replicate 29999 0, 0⟩, 1, [], []⟩ :=
    runLoop_step_ok _ _ 19 _ _ (by decide) rfl
  have e2 : runLoop loopProgram [(6, 1), (1, 6)] 19
        ⟨⟨1 :: List.replicate 29999 0, 0⟩, 1, [], []⟩
      = runLoop loopProgram [(6, 1), (1, 6)] 18
        ⟨⟨1 :: List.replicate 29999 0, 0⟩, 2, [], []⟩ :=
    runLoop_step_ok _ _ 18 _ _ (by decide) rfl
  have e3 : runLoop loopProgram [(6, 1), (1, 6)] 18
        ⟨⟨1 :: List.replicate 29999 0, 0⟩, 2, [], []⟩
      = runLoop loopProgram [(6, 1), (1, 6)] 17
        ⟨⟨1 :: List.replicate 29999 0, 1⟩, 3, [], []⟩ :=
    runLoop_step_ok _ _ 17 _ _ (by decide) hstep2
  have e4 : runLoop loopProgram [(6, 1), (1, 6)] 17
        ⟨⟨1 :: List.replicate 29999 0, 1⟩, 3, [], []⟩
      = runLoop loopProgram [(6, 1), (1, 6)] 16
        ⟨⟨1 :: 1 :: List.replicate 29998 0, 1⟩, 4, [], []⟩ :=
    runLoop_step_ok _ _ 16 _ _ (by decide) rfl
  have e5 : runLoop loopProgram [(6, 1), (1, 6)] 16
        ⟨⟨1 :: 1 :: List.replicate 29998 0, 1⟩, 4, [], []⟩
      = runLoop loopProgram [(6, 1), (1, 6)] 15
        ⟨⟨1 :: 1 :: List.replicate 29998 0, 0⟩, 5, [], []⟩ :=
    runLoop_step_ok _ _ 15 _ _ (by decide) rfl
  have e6 : runLoop loopProgram [(6, 1), (1, 6)] 15
        ⟨⟨1 :: 1 :: List.replicate 29998 0, 0⟩, 5, [], []⟩
      = runLoop loopProgram [(6, 1), (1, 6)] 14
        ⟨⟨0 :: 1 :: List.replicate 29998 0, 0⟩, 6, [], []⟩ :=
    runLoop_step_ok _ _ 14 _ _ (by decide) rfl
  have e7 : runLoop loopProgram [(6, 1), (1, 6)] 14
        ⟨⟨0 :: 1 :: List.replicate 29998 0, 0⟩, 6, [], []⟩
      = runLoop loopProgram [(6, 1), (1, 6)] 13
        ⟨⟨0 :: 1 :: List.replicate 29998 0, 0⟩, 7, [], []⟩ :=
    runLoop_step_ok _ _ 13 _ _ (by decide) rfl
  have e8 : runLoop loopProgram [(6, 1), (1, 6)] 13
        ⟨⟨0 :: 1 :: List.replicate 29998 0, 0⟩, 7, [], []⟩
      = Outcome.ok ⟨⟨0 :: 1 :: List.replicate 29998 0, 0⟩, 7, [], []⟩ :=
    runLoop_halted _ _ 13 _ (by decide)
  rw [h0, e1, e2, e3, e4, e5, e6, e7, e8]
  exact ⟨rfl, rfl⟩

end Bf
